import Mathlib

/-!
Verification of a minimal MVCC key-value store (Transactionmvcc.c).

The C program keeps a global array of keys, each with a newest-first
version chain; transactions snapshot the global commit timestamp at
begin, buffer writes locally, and publish them at commit under a single
fresh timestamp.  The definitions below are a shallow embedding of that
source: C strings written through `strncpy(dst, src, n)` into a
zero-initialised buffer are modelled as Lean strings truncated to `n`
characters, the heap-linked version chain as a Lean list (head = newest),
the global mutable counters as fields of an explicit state record, and
the demo driver's possible call sequences as a small step machine.
-/

namespace MVCC

/-- Capacity constant `MAX_KEYS` from the C source. -/
def MAX_KEYS : Nat := 16

/-- Capacity constant `MAX_KEYNAME` from the C source. -/
def MAX_KEYNAME : Nat := 16

/-- Capacity constant `MAX_TRANSACTIONS` from the C source. -/
def MAX_TRANSACTIONS : Nat := 32

/-- Capacity constant `MAX_WRITESET` from the C source. -/
def MAX_WRITESET : Nat := 8

/-- Model of `strncpy(dst, src, n)` into a zero-initialised buffer:
the stored string is `src` truncated to its first `n` characters. -/
def strTake (n : Nat) (s : String) : String := ⟨s.data.take n⟩

/-- One node of a version chain (`struct Version`); the `next` pointer of
the C struct is modelled by list structure, head = newest. -/
structure Version where
  commit_ts : Int
  value : String
  deriving DecidableEq

/-- One key record (`struct Key`): name buffer, newest-first version
chain, and the (unused) lock owner field. -/
structure Key where
  name : String
  versions : List Version
  lock_owner : Int
  deriving DecidableEq

/-- Transaction lifecycle states (`tx_state_t`). -/
inductive TxState where
  | tx_active
  | tx_aborted
  | tx_committed
  deriving DecidableEq

/-- One buffered write (`struct KVPair`). -/
structure KVPair where
  key : String
  value : String
  deriving DecidableEq

/-- A transaction (`struct Transaction`); `write_count` is the length of
`write_set`. -/
structure Transaction where
  id : Int
  start_ts : Int
  state : TxState
  write_set : List KVPair
  deriving DecidableEq

/-- The global mutable state of the C program: the key store and the two
counters `global_commit_ts` and `global_tx_seq`. -/
structure MState where
  store : List Key
  global_commit_ts : Int
  global_tx_seq : Int
  deriving DecidableEq

/-- `create_key`: the record placed in `store[store_count++]`; the name is
written with `strncpy(.., MAX_KEYNAME-1)` and the chain starts with the
sentinel version at commit_ts 0 holding the initial value. -/
def create_key (k : String) (initial : String) : Key :=
  { name := strTake (MAX_KEYNAME - 1) k
    versions := [{ commit_ts := 0, value := initial }]
    lock_owner := 0 }

/-- `get_key`: linear scan of the store, returning the first record whose
stored name equals the requested name (`strcmp == 0`). -/
def get_key (store : List Key) (k : String) : Option Key :=
  store.find? (fun key => key.name == k)

/-- `add_version`: prepend a freshly stamped version at the chain head. -/
def add_version (k : Key) (ts : Int) (val : String) : Key :=
  { k with versions := { commit_ts := ts, value := val } :: k.versions }

/-- `tx_begin`: take the next transaction id (`global_tx_seq++`), snapshot
`global_commit_ts` as `start_ts`, and start in the Active state. -/
def tx_begin (s : MState) : MState × Transaction :=
  ({ s with global_tx_seq := s.global_tx_seq + 1 },
   { id := s.global_tx_seq
     start_ts := s.global_commit_ts
     state := TxState.tx_active
     write_set := [] })

/-- The while-loop of `tx_read` / `tx_read_versioned`: walk the chain
newest-to-oldest and return the first version with `commit_ts <= ts`. -/
def visible_as_of : List Version → Int → Option Version
  | [], _ => none
  | v :: rest, ts => if v.commit_ts ≤ ts then some v else visible_as_of rest ts

/-- `tx_read`: look the key up (without creating it) and scan its chain at
the transaction's snapshot timestamp; NULL is modelled as `none`. -/
def tx_read (store : List Key) (tx : Transaction) (keyname : String) : Option Version :=
  match get_key store keyname with
  | none => none
  | some k => visible_as_of k.versions tx.start_ts

/-- `tx_read_versioned`: the administrative read at an explicit timestamp. -/
def tx_read_versioned (store : List Key) (keyname : String) (ts : Int) : Option Version :=
  match get_key store keyname with
  | none => none
  | some k => visible_as_of k.versions ts

/-- `tx_write`: buffer the pair in the write set; key and value are written
with `strncpy` bounded by `MAX_KEYNAME-1` and 127 characters.  The C code
performs no capacity check against `MAX_WRITESET` before storing. -/
def tx_write (tx : Transaction) (key : String) (val : String) : Transaction :=
  { tx with write_set :=
      tx.write_set ++ [{ key := strTake (MAX_KEYNAME - 1) key, value := strTake 127 val }] }

/-- One iteration of the commit loop: `get_key`, on miss `create_key` with
empty initial value (the new record goes to the end of the store), then
`add_version` on the resolved record. -/
def store_write (store : List Key) (name : String) (ts : Int) (val : String) : List Key :=
  match store with
  | [] => [add_version (create_key name "") ts val]
  | k :: rest =>
    if k.name = name then add_version k ts val :: rest
    else k :: store_write rest name ts val

/-- The commit loop over the buffered writes, in write_set order. -/
def commit_writes (store : List Key) (ts : Int) : List KVPair → List Key
  | [] => store
  | p :: rest => commit_writes (store_write store p.key ts p.value) ts rest

/-- `tx_commit`: draw one fresh timestamp (`++global_commit_ts`), publish
every buffered write under it, and mark the transaction Committed.  The C
code never inspects the transaction's current state. -/
def tx_commit (s : MState) (tx : Transaction) : MState × Transaction :=
  ({ store := commit_writes s.store (s.global_commit_ts + 1) tx.write_set
     global_commit_ts := s.global_commit_ts + 1
     global_tx_seq := s.global_tx_seq },
   { tx with state := TxState.tx_committed })

/-- The operations a driver can perform; transactions are addressed by
their position in the list of transactions begun so far. -/
inductive Op where
  | createKey (name : String) (initial : String)
  | beginTx
  | readOp (i : Nat) (keyname : String)
  | readVersionedOp (keyname : String) (ts : Int)
  | writeOp (i : Nat) (key : String) (val : String)
  | commitOp (i : Nat)
  deriving DecidableEq

/-- Whole-program state: the globals plus every transaction begun so far. -/
structure World where
  st : MState
  txs : List Transaction
  deriving DecidableEq

/-- The state at program start: empty store, `global_commit_ts = 1`,
`global_tx_seq = 1`. -/
def initWorld : World :=
  { st := { store := [], global_commit_ts := 1, global_tx_seq := 1 }, txs := [] }

/-- One driver step.  Reads only print in the C program, so they leave the
state unchanged; writes and commits act on the addressed transaction. -/
def stepOp (w : World) : Op → World
  | Op.createKey n init => { w with st := { w.st with store := w.st.store ++ [create_key n init] } }
  | Op.beginTx =>
    let p := tx_begin w.st
    { st := p.1, txs := w.txs ++ [p.2] }
  | Op.readOp _ _ => w
  | Op.readVersionedOp _ _ => w
  | Op.writeOp i k v =>
    if h : i < w.txs.length then { w with txs := w.txs.set i (tx_write w.txs[i] k v) } else w
  | Op.commitOp i =>
    if h : i < w.txs.length then
      let p := tx_commit w.st w.txs[i]
      { st := p.1, txs := w.txs.set i p.2 }
    else w

/-- Run a sequence of driver steps. -/
def run (w : World) : List Op → World
  | [] => w
  | op :: ops => run (stepOp w op) ops

/-- Observable counter events: the transaction id handed out by a begin,
and the commit timestamp under which a commit publishes. -/
inductive Event where
  | beganTx (id : Int)
  | committedTs (ts : Int)
  deriving DecidableEq

/-- Events emitted by one step. -/
def stepEvents (w : World) : Op → List Event
  | Op.beginTx => [Event.beganTx w.st.global_tx_seq]
  | Op.commitOp i =>
    if i < w.txs.length then [Event.committedTs (w.st.global_commit_ts + 1)] else []
  | _ => []

/-- Events emitted along a run. -/
def runEv (w : World) : List Op → List Event
  | [] => []
  | op :: ops => stepEvents w op ++ runEv (stepOp w op) ops

/-- The transaction ids observed by begins, in order. -/
def beganIds (evs : List Event) : List Int :=
  evs.filterMap (fun e => match e with | Event.beganTx i => some i | _ => none)

/-- The commit timestamps published by commits, in order. -/
def commitTss (evs : List Event) : List Int :=
  evs.filterMap (fun e => match e with | Event.committedTs t => some t | _ => none)

/-- `commit_ts` values are non-increasing from head (newest) to tail. -/
def descendingB : List Version → Bool
  | [] => true
  | [_] => true
  | a :: b :: rest => decide (b.commit_ts ≤ a.commit_ts) && descendingB (b :: rest)

/-- `commit_ts` values are strictly decreasing from head to tail. -/
def strictDescB : List Version → Bool
  | [] => true
  | [_] => true
  | a :: b :: rest => decide (b.commit_ts < a.commit_ts) && strictDescB (b :: rest)

/-- Well-formedness of one key record under a timestamp bound: nonempty
chain, sentinel version with commit_ts 0 at the tail, non-increasing
timestamps, and every timestamp between 0 and the bound. -/
def KeyInv (bound : Int) (k : Key) : Prop :=
  k.versions ≠ [] ∧
  k.versions.getLast?.map Version.commit_ts = some 0 ∧
  descendingB k.versions = true ∧
  ∀ v ∈ k.versions, 0 ≤ v.commit_ts ∧ v.commit_ts ≤ bound

instance (bound : Int) (k : Key) : Decidable (KeyInv bound k) := by
  unfold KeyInv; infer_instance

/-- Global invariant of reachable states: counters at least 1, every key
record well formed, every transaction's snapshot between 0 and the current
commit timestamp, and every buffered key name already truncated to fit the
name buffer. -/
def WInv (w : World) : Prop :=
  1 ≤ w.st.global_commit_ts ∧
  1 ≤ w.st.global_tx_seq ∧
  (∀ k ∈ w.st.store, KeyInv w.st.global_commit_ts k) ∧
  (∀ tx ∈ w.txs, 0 ≤ tx.start_ts ∧ tx.start_ts ≤ w.st.global_commit_ts ∧
    ∀ p ∈ tx.write_set, p.key.length ≤ MAX_KEYNAME - 1)

/-- Versions carrying exactly the timestamp `ts` across the whole store. -/
def countAtTs (store : List Key) (ts : Int) : Nat :=
  (store.map (fun k => k.versions.countP (fun v => v.commit_ts == ts))).sum

/-- `n` successive buffered writes of the same pair. -/
def tx_write_iter : Nat → Transaction → Transaction
  | 0, tx => tx
  | n + 1, tx => tx_write_iter n (tx_write tx "K" "v")

/-- Specification-side description of what one commit leaves behind for one
key name: given the key's record before the commit (if any) and the
buffered writes addressed to that name, the record afterwards carries one
new version per buffered write, all stamped `ts`, newest last-written
first, on top of the old chain (or on top of a fresh sentinel). -/
def published (base : Option Key) (name : String) (ts : Int) (fs : List KVPair) : Option Key :=
  match base, fs with
  | none, [] => none
  | some k0, fs =>
    some { k0 with versions := (fs.map (fun p => Version.mk ts p.value)).reverse ++ k0.versions }
  | none, f :: fs =>
    some { name := name
           versions := ((f :: fs).map (fun p => Version.mk ts p.value)).reverse ++
             [{ commit_ts := 0, value := "" }]
           lock_owner := 0 }

/-- Concrete pre-state for exercising `tx_commit`: one key "A". -/
def c2s : MState :=
  { store := [create_key "A" "initA"], global_commit_ts := 1, global_tx_seq := 2 }

/-- Concrete transaction with a duplicated key in its write set. -/
def c2tx : Transaction :=
  { id := 1, start_ts := 1, state := TxState.tx_active
    write_set := [{ key := "A", value := "1" }, { key := "A", value := "2" },
                  { key := "B", value := "9" }] }

/-- The chain scan is exactly `List.find?` of the visibility predicate:
it returns the first version, newest to oldest, with `commit_ts <= ts`. -/
theorem visible_as_of_eq_find (l : List Version) (ts : Int) :
    visible_as_of l ts = l.find? (fun v => decide (v.commit_ts ≤ ts)) := by
  induction l with
  | nil => rfl
  | cons v rest ih =>
    by_cases h : v.commit_ts ≤ ts <;> simp [visible_as_of, List.find?_cons, h, ih]

/-- C1: both read paths apply the same rule: scan the key's chain newest to
oldest and return the first version with `commit_ts <= ts`; the result is
`none` when the key is absent (the bind) or no version qualifies (`find?`),
and any returned version satisfies `commit_ts <= ts`. -/
theorem c1_snapshot_read_visibility :
    ∀ (store : List Key) (tx : Transaction) (keyname : String) (ts : Int),
      tx_read store tx keyname = tx_read_versioned store keyname tx.start_ts ∧
      tx_read_versioned store keyname ts =
        (get_key store keyname).bind
          (fun k => k.versions.find? (fun v => decide (v.commit_ts ≤ ts))) ∧
      (tx_read_versioned store keyname ts).all (fun v => decide (v.commit_ts ≤ ts)) = true := by
  intro store tx keyname ts
  refine ⟨rfl, ?_, ?_⟩
  · cases hk : get_key store keyname <;>
      simp [tx_read_versioned, hk, visible_as_of_eq_find]
  · cases hk : get_key store keyname with
    | none => simp [tx_read_versioned, hk, Option.all]
    | some k =>
      cases hv : visible_as_of k.versions ts with
      | none => simp [tx_read_versioned, hk, hv, Option.all]
      | some v =>
        have := hv
        rw [visible_as_of_eq_find] at this
        have hp := List.find?_some this
        simp [tx_read_versioned, hk, hv, Option.all, hp]

/-- C8: a transaction's own buffered (uncommitted) write is invisible to its
own read: `tx_read` ignores the write set entirely and consults only the
committed versions visible at the snapshot, exactly like the versioned read
at `start_ts`. -/
theorem c8_no_read_your_own_writes :
    ∀ (store : List Key) (tx : Transaction) (key val keyname : String),
      tx_read store (tx_write tx key val) keyname = tx_read store tx keyname ∧
      tx_read store tx keyname = tx_read_versioned store keyname tx.start_ts :=
  fun _ _ _ _ _ => ⟨rfl, rfl⟩

/-- C9: neither read operation mutates anything: a read step leaves the
whole program state (store, counters, transactions) identical. -/
theorem c9_reads_do_not_mutate :
    ∀ (w : World) (i : Nat) (keyname : String) (ts : Int),
      stepOp w (Op.readOp i keyname) = w ∧ stepOp w (Op.readVersionedOp keyname ts) = w :=
  fun _ _ _ _ => ⟨rfl, rfl⟩

/-- C7 (counterexample): beginning a transaction does not advance the
commit-timestamp counter: from the initial state (counter 1) a begin leaves
it at 1, not 2. -/
theorem c7_counterexample :
    ¬ ((tx_begin initWorld.st).1.global_commit_ts = initWorld.st.global_commit_ts + 1) := by
  decide

/-- C7 (amended): `tx_begin` snapshots the commit-timestamp counter without
advancing it, and increments only the transaction-id counter; the store is
untouched. -/
theorem c7_amended_begin_does_not_advance_commit_ts :
    ∀ s : MState,
      (tx_begin s).1.global_commit_ts = s.global_commit_ts ∧
      (tx_begin s).2.start_ts = s.global_commit_ts ∧
      (tx_begin s).1.global_tx_seq = s.global_tx_seq + 1 ∧
      (tx_begin s).1.store = s.store :=
  fun _ => ⟨rfl, rfl, rfl, rfl⟩

/-- C5 (counterexample): after creating key A and committing a transaction
that wrote A once, the transaction is Committed and A has 2 versions; a
second commit of the same transaction is not rejected and leaves A with 3
versions, so the rejected-call-changes-nothing claim fails. -/
theorem c5_counterexample :
    (run initWorld
        [Op.createKey "A" "initA", Op.beginTx, Op.writeOp 0 "A" "100",
         Op.commitOp 0]).txs.map Transaction.state = [TxState.tx_committed] ∧
    ((get_key (run initWorld
        [Op.createKey "A" "initA", Op.beginTx, Op.writeOp 0 "A" "100",
         Op.commitOp 0]).st.store "A").map (fun k => k.versions.length)) = some 2 ∧
    ((get_key (stepOp (run initWorld
        [Op.createKey "A" "initA", Op.beginTx, Op.writeOp 0 "A" "100",
         Op.commitOp 0]) (Op.commitOp 0)).st.store "A").map
        (fun k => k.versions.length)) = some 3 := by
  decide

/-- C5 (amended): `tx_commit` never inspects the transaction state, so a
commit of an already-committed transaction behaves exactly like a commit of
an active one: it draws a fresh commit timestamp, republishes every
buffered write, and leaves the state Committed. -/
theorem c5_amended_double_commit_republishes :
    ∀ (s : MState) (tx : Transaction),
      tx_commit s tx = tx_commit s { tx with state := TxState.tx_active } ∧
      (tx_commit s tx).2.state = TxState.tx_committed ∧
      (tx_commit s tx).1.global_commit_ts = s.global_commit_ts + 1 :=
  fun _ _ => ⟨rfl, rfl, rfl⟩

/-- C6: `tx_write` performs no capacity check: starting from a fresh
transaction, the write that fills the buffer to `MAX_WRITESET` and the next
one beyond it both go through, leaving `write_count = MAX_WRITESET + 1` —
in the C source this stores through `write_set[MAX_WRITESET]`, past the end
of the fixed array, instead of failing with CapacityExceeded. -/
theorem c6_no_capacity_check :
    (tx_write_iter MAX_WRITESET (tx_begin initWorld.st).2).write_set.length = MAX_WRITESET ∧
    (tx_write_iter (MAX_WRITESET + 1) (tx_begin initWorld.st).2).write_set.length =
      MAX_WRITESET + 1 := by
  decide

/-- Truncation really truncates: the stored string fits the bound. -/
theorem strTake_length_le (n : Nat) (s : String) : (strTake n s).length ≤ n := by
  show (s.data.take n).length ≤ n
  simp [List.length_take]

/-- Relaxing the timestamp bound preserves key well-formedness. -/
theorem keyinv_mono {b b' : Int} {k : Key} (h : KeyInv b k) (hb : b ≤ b') : KeyInv b' k := by
  obtain ⟨h1, h2, h3, h4⟩ := h
  exact ⟨h1, h2, h3, fun v hv => ⟨(h4 v hv).1, le_trans (h4 v hv).2 hb⟩⟩

/-- One commit-loop iteration preserves key well-formedness at the bound of
the timestamp being published. -/
theorem store_write_keyinv {store : List Key} {name : String} {ts : Int} {val : String}
    (h0 : 0 < ts) (hall : ∀ k ∈ store, KeyInv ts k) :
    ∀ k ∈ store_write store name ts val, KeyInv ts k := by
  induction store with
  | nil =>
    intro k hk
    simp [store_write] at hk
    subst hk
    refine ⟨by simp [add_version, create_key], by simp [add_version, create_key], ?_, ?_⟩
    · simp [add_version, create_key, descendingB]
      omega
    · simp [add_version, create_key]
      omega
  | cons k0 rest ih =>
    intro k hk
    rw [store_write] at hk
    by_cases hn : k0.name = name
    · simp [hn] at hk
      rcases hk with hk | hk
      on_goal 2 => exact hall k (by simp [hk])
      · subst hk
        obtain ⟨h1, h2, h3, h4⟩ := hall k0 (by simp)
        refine ⟨by simp [add_version], ?_, ?_, ?_⟩
        · rcases hne : k0.versions with _ | ⟨v0, vs⟩
          · exact absurd hne h1
          · rw [hne] at h2
            simpa [add_version, hne] using h2
        · rcases hne : k0.versions with _ | ⟨v0, vs⟩
          · exact absurd hne h1
          · rw [hne] at h3 h4
            have hv0 : v0.commit_ts ≤ ts := (h4 v0 (by simp)).2
            simp [add_version, hne, descendingB, hv0, h3]
        · intro v hv
          simp [add_version] at hv
          rcases hv with hv | hv
          · subst hv; exact ⟨le_of_lt h0, le_refl ts⟩
          · exact h4 v hv
    · simp [hn] at hk
      rcases hk with hk | hk
      · subst hk; exact hall k (by simp)
      · exact ih (fun k' hk' => hall k' (by simp [hk'])) k hk

/-- The whole commit loop preserves key well-formedness at the bound of the
published timestamp. -/
theorem commit_writes_keyinv {ts : Int} (h0 : 0 < ts) :
    ∀ (ws : List KVPair) (store : List Key), (∀ k ∈ store, KeyInv ts k) →
      ∀ k ∈ commit_writes store ts ws, KeyInv ts k := by
  intro ws
  induction ws with
  | nil => intro store hall k hk; exact hall k hk
  | cons p rest ih =>
    intro store hall k hk
    exact ih _ (store_write_keyinv h0 hall) k hk

/-- Every driver step preserves the global invariant. -/
theorem stepOp_winv {w : World} (h : WInv w) (op : Op) : WInv (stepOp w op) := by
  obtain ⟨h1, h2, h3, h4⟩ := h
  cases op with
  | createKey n init =>
    refine ⟨?_, ?_, ?_, ?_⟩
    · simpa [stepOp] using h1
    · simpa [stepOp] using h2
    · intro k hk
      simp [stepOp] at hk ⊢
      rcases hk with hk | hk
      · exact h3 k hk
      · subst hk
        exact ⟨by simp [create_key], by simp [create_key], by simp [create_key, descendingB],
          by simp [create_key]; omega⟩
    · intro tx htx
      simp [stepOp] at htx ⊢
      exact h4 tx htx
  | beginTx =>
    refine ⟨?_, ?_, ?_, ?_⟩
    · simpa [stepOp, tx_begin] using h1
    · simp [stepOp, tx_begin]; omega
    · intro k hk
      simp [stepOp, tx_begin] at hk ⊢
      exact h3 k hk
    · intro tx htx
      simp [stepOp, tx_begin] at htx ⊢
      rcases htx with htx | htx
      · exact h4 tx htx
      · subst htx
        refine ⟨by simp; omega, by simp, by simp⟩
  | readOp i keyname => exact ⟨h1, h2, h3, h4⟩
  | readVersionedOp keyname ts => exact ⟨h1, h2, h3, h4⟩
  | writeOp i key val =>
    by_cases hi : i < w.txs.length
    · refine ⟨?_, ?_, ?_, ?_⟩
      · simpa [stepOp, hi] using h1
      · simpa [stepOp, hi] using h2
      · intro k hk
        simp [stepOp, hi] at hk ⊢
        exact h3 k hk
      · intro tx htx
        simp [stepOp, hi] at htx ⊢
        rcases List.mem_or_eq_of_mem_set htx with hmem | heq
        · exact h4 tx hmem
        · subst heq
          obtain ⟨ha, hb, hc⟩ := h4 (w.txs[i]) (List.getElem_mem hi)
          refine ⟨by simpa [tx_write] using ha, by simpa [tx_write] using hb, ?_⟩
          intro p hp
          simp [tx_write] at hp
          rcases hp with hp | hp
          · exact hc p hp
          · rw [hp]; exact strTake_length_le _ _
    · simp only [stepOp, dif_neg hi]
      exact ⟨h1, h2, h3, h4⟩
  | commitOp i =>
    by_cases hi : i < w.txs.length
    · refine ⟨?_, ?_, ?_, ?_⟩
      · simp [stepOp, hi, tx_commit]; omega
      · simpa [stepOp, hi, tx_commit] using h2
      · intro k hk
        simp [stepOp, hi, tx_commit] at hk ⊢
        exact commit_writes_keyinv (by omega) _ _
          (fun k' hk' => keyinv_mono (h3 k' hk') (by omega)) k hk
      · intro tx htx
        simp [stepOp, hi, tx_commit] at htx ⊢
        rcases List.mem_or_eq_of_mem_set htx with hmem | heq
        · obtain ⟨ha, hb, hc⟩ := h4 tx hmem
          exact ⟨ha, by omega, hc⟩
        · subst heq
          obtain ⟨ha, hb, hc⟩ := h4 (w.txs[i]) (List.getElem_mem hi)
          exact ⟨by simpa using ha, by simp; omega, by simpa using hc⟩
    · simp only [stepOp, dif_neg hi]
      exact ⟨h1, h2, h3, h4⟩

/-- The global invariant holds along any run. -/
theorem run_winv : ∀ (ops : List Op) (w : World), WInv w → WInv (run w ops) := by
  intro ops
  induction ops with
  | nil => intro w h; exact h
  | cons op rest ih => intro w h; exact ih _ (stepOp_winv h op)

/-- The invariant holds initially. -/
theorem winv_init : WInv initWorld := by
  refine ⟨by decide, by decide, ?_, ?_⟩ <;> intro x hx <;> simp [initWorld] at hx

/-- Every state the program can reach satisfies the global invariant. -/
theorem winv_reach (ops : List Op) : WInv (run initWorld ops) :=
  run_winv ops initWorld winv_init

/-- C3 (counterexample): a transaction that writes the same key twice and
commits yields the reachable chain [(2,"2"), (2,"1"), (0,"initA")], whose
timestamps are not strictly descending (they are only non-increasing). -/
theorem c3_counterexample :
    ((get_key (run initWorld
        [Op.createKey "A" "initA", Op.beginTx, Op.writeOp 0 "A" "1",
         Op.writeOp 0 "A" "2", Op.commitOp 0]).st.store "A").map
        (fun k => k.versions)) = some [⟨2, "2"⟩, ⟨2, "1"⟩, ⟨0, "initA"⟩] ∧
    ((get_key (run initWorld
        [Op.createKey "A" "initA", Op.beginTx, Op.writeOp 0 "A" "1",
         Op.writeOp 0 "A" "2", Op.commitOp 0]).st.store "A").map
        (fun k => strictDescB k.versions)) = some false := by
  decide

/-- C3 (amended): in every reachable state every key's chain is nonempty,
carries the sentinel version with commit_ts 0 at its tail, and its
commit_ts values are non-increasing from head to tail (strict descent can
fail only between versions published by one commit, as the counterexample
shows); the `run` quantification makes this preserved by every operation. -/
theorem c3_amended_chain_descending_with_sentinel :
    ∀ (ops : List Op) (k : Key), k ∈ (run initWorld ops).st.store →
      k.versions ≠ [] ∧
      k.versions.getLast?.map Version.commit_ts = some 0 ∧
      descendingB k.versions = true := by
  intro ops k hk
  obtain ⟨ha, hb, hc, _⟩ := (winv_reach ops).2.2.1 k hk
  exact ⟨ha, hb, hc⟩

/-- Witness for C3 (amended) at a concrete reachable state. -/
theorem c3_amended_witness :
    create_key "A" "x" ∈ (run initWorld [Op.createKey "A" "x"]).st.store ∧
    ((create_key "A" "x").versions ≠ [] ∧
      (create_key "A" "x").versions.getLast?.map Version.commit_ts = some 0 ∧
      descendingB (create_key "A" "x").versions = true) :=
  ⟨by decide, c3_amended_chain_descending_with_sentinel [Op.createKey "A" "x"]
    (create_key "A" "x") (by decide)⟩

/-- A chain whose tail is the sentinel version always yields a visible
version at any non-negative timestamp. -/
theorem visible_of_sentinel {ts : Int} :
    ∀ l : List Version, l.getLast?.map Version.commit_ts = some 0 → 0 ≤ ts →
      ∃ v, visible_as_of l ts = some v := by
  intro l
  induction l with
  | nil => intro h _; simp at h
  | cons v rest ih =>
    intro h hts
    by_cases hv : v.commit_ts ≤ ts
    · exact ⟨v, by simp [visible_as_of, hv]⟩
    · rcases hrest : rest with _ | ⟨v1, vs⟩
      · rw [hrest] at h
        simp [List.getLast?] at h
        omega
      · subst hrest
        rw [List.getLast?_cons_cons] at h
        obtain ⟨u, hu⟩ := ih h hts
        refine ⟨u, ?_⟩
        rw [visible_as_of, if_neg hv]
        exact hu

/-- C10: in every reachable state, a read of an existing key never comes
back empty: at any timestamp >= 0 the sentinel version (commit_ts 0) at
the tail guarantees a visible version, and in particular every
transactional read of an existing key returns a value. -/
theorem c10_existing_key_reads_succeed :
    ∀ (ops : List Op) (keyname : String) (k : Key) (ts : Int) (i : Nat) (tx : Transaction),
      get_key (run initWorld ops).st.store keyname = some k →
      (0 ≤ ts → ∃ v, tx_read_versioned (run initWorld ops).st.store keyname ts = some v) ∧
      ((run initWorld ops).txs.get? i = some tx →
        ∃ v, tx_read (run initWorld ops).st.store tx keyname = some v) := by
  intro ops keyname k ts i tx hk
  have hmem : k ∈ (run initWorld ops).st.store := List.mem_of_find?_eq_some hk
  have hsent := ((winv_reach ops).2.2.1 k hmem).2.1
  constructor
  · intro hts
    obtain ⟨v, hv⟩ := visible_of_sentinel k.versions hsent hts
    exact ⟨v, by simp [tx_read_versioned, hk, hv]⟩
  · intro htx
    have htxmem : tx ∈ (run initWorld ops).txs := List.get?_mem htx
    have hts : 0 ≤ tx.start_ts := ((winv_reach ops).2.2.2 tx htxmem).1
    obtain ⟨v, hv⟩ := visible_of_sentinel k.versions hsent hts
    exact ⟨v, by simp [tx_read, hk, hv]⟩

/-- Witness for C10 at a concrete reachable state: key A exists after
creation, a begun transaction's read of A and a versioned read at ts 5
both return a value. -/
theorem c10_witness :
    (∃ v, tx_read_versioned
        (run initWorld [Op.createKey "A" "x", Op.beginTx]).st.store "A" 5 = some v) ∧
    (∃ v, tx_read (run initWorld [Op.createKey "A" "x", Op.beginTx]).st.store
        { id := 1, start_ts := 1, state := TxState.tx_active, write_set := [] } "A" = some v) :=
  ⟨(c10_existing_key_reads_succeed [Op.createKey "A" "x", Op.beginTx] "A"
      (create_key "A" "x") 5 0
      { id := 1, start_ts := 1, state := TxState.tx_active, write_set := [] }
      (by decide)).1 (by decide),
   (c10_existing_key_reads_succeed [Op.createKey "A" "x", Op.beginTx] "A"
      (create_key "A" "x") 5 0
      { id := 1, start_ts := 1, state := TxState.tx_active, write_set := [] }
      (by decide)).2 (by decide)⟩

/-- One step never decreases either global counter. -/
theorem stepOp_counters_mono (w : World) (op : Op) :
    w.st.global_commit_ts ≤ (stepOp w op).st.global_commit_ts ∧
    w.st.global_tx_seq ≤ (stepOp w op).st.global_tx_seq := by
  cases op with
  | createKey n init => simp [stepOp]
  | beginTx => exact ⟨le_refl _, by simp [stepOp, tx_begin]⟩
  | readOp i keyname => simp [stepOp]
  | readVersionedOp keyname ts => simp [stepOp]
  | writeOp i key val =>
    by_cases hi : i < w.txs.length <;> simp [stepOp, hi]
  | commitOp i =>
    by_cases hi : i < w.txs.length <;> simp [stepOp, hi, tx_commit]

/-- A whole run never decreases either global counter. -/
theorem run_counters_mono : ∀ (ops : List Op) (w : World),
    w.st.global_commit_ts ≤ (run w ops).st.global_commit_ts ∧
    w.st.global_tx_seq ≤ (run w ops).st.global_tx_seq := by
  intro ops
  induction ops with
  | nil => intro w; exact ⟨le_refl _, le_refl _⟩
  | cons op rest ih =>
    intro w
    obtain ⟨h1, h2⟩ := stepOp_counters_mono w op
    obtain ⟨h3, h4⟩ := ih (stepOp w op)
    exact ⟨le_trans h1 h3, le_trans h2 h4⟩

/-- `beganIds` distributes over event-list append. -/
theorem beganIds_append (a b : List Event) : beganIds (a ++ b) = beganIds a ++ beganIds b := by
  simp [beganIds]

/-- `commitTss` distributes over event-list append. -/
theorem commitTss_append (a b : List Event) : commitTss (a ++ b) = commitTss a ++ commitTss b := by
  simp [commitTss]

/-- Along any run, the issued transaction ids are strictly increasing and
bounded below by the current counter, and likewise the published commit
timestamps. -/
theorem runEv_strict : ∀ (ops : List Op) (w : World),
    List.Pairwise (· < ·) (beganIds (runEv w ops)) ∧
    (∀ x ∈ beganIds (runEv w ops), w.st.global_tx_seq ≤ x) ∧
    List.Pairwise (· < ·) (commitTss (runEv w ops)) ∧
    (∀ x ∈ commitTss (runEv w ops), w.st.global_commit_ts < x) := by
  have enil1 : beganIds ([] : List Event) = [] := rfl
  have enil2 : commitTss ([] : List Event) = [] := rfl
  intro ops
  induction ops with
  | nil =>
    intro w
    rw [runEv]
    refine ⟨by rw [enil1]; exact List.Pairwise.nil, ?_, by rw [enil2]; exact List.Pairwise.nil, ?_⟩
    · intro x hx; rw [enil1] at hx; exact absurd hx (List.not_mem_nil x)
    · intro x hx; rw [enil2] at hx; exact absurd hx (List.not_mem_nil x)
  | cons op rest ih =>
    intro w
    obtain ⟨ih1, ih2, ih3, ih4⟩ := ih (stepOp w op)
    rw [runEv, beganIds_append, commitTss_append]
    cases op with
    | beginTx =>
      have e1 : beganIds (stepEvents w Op.beginTx) = [w.st.global_tx_seq] := rfl
      have e2 : commitTss (stepEvents w Op.beginTx) = [] := rfl
      have hseq : (stepOp w Op.beginTx).st.global_tx_seq = w.st.global_tx_seq + 1 := rfl
      have hct : (stepOp w Op.beginTx).st.global_commit_ts = w.st.global_commit_ts := rfl
      rw [e1, e2, List.singleton_append, List.nil_append]
      refine ⟨?_, ?_, ih3, ?_⟩
      · refine List.pairwise_cons.2 ⟨?_, ih1⟩
        intro x hx
        have := ih2 x hx
        omega
      · intro x hx
        rcases List.mem_cons.1 hx with hx | hx
        · omega
        · have := ih2 x hx; omega
      · intro x hx
        have := ih4 x hx
        omega
    | commitOp i =>
      by_cases hi : i < w.txs.length
      · have e1 : beganIds (stepEvents w (Op.commitOp i)) = [] := by
          simp [stepEvents, hi, beganIds]
        have e2 : commitTss (stepEvents w (Op.commitOp i)) =
            [w.st.global_commit_ts + 1] := by
          simp [stepEvents, hi, commitTss]
        have hseq : (stepOp w (Op.commitOp i)).st.global_tx_seq = w.st.global_tx_seq := by
          simp [stepOp, hi, tx_commit]
        have hct : (stepOp w (Op.commitOp i)).st.global_commit_ts =
            w.st.global_commit_ts + 1 := by
          simp [stepOp, hi, tx_commit]
        rw [e1, e2, List.singleton_append, List.nil_append]
        refine ⟨ih1, ?_, ?_, ?_⟩
        · intro x hx
          have := ih2 x hx
          omega
        · refine List.pairwise_cons.2 ⟨?_, ih3⟩
          intro x hx
          have := ih4 x hx
          omega
        · intro x hx
          rcases List.mem_cons.1 hx with hx | hx
          · omega
          · have := ih4 x hx; omega
      · have e0 : stepEvents w (Op.commitOp i) = [] := by simp [stepEvents, hi]
        have hst : stepOp w (Op.commitOp i) = w := by simp [stepOp, hi]
        rw [hst] at ih1 ih2 ih3 ih4
        rw [e0, enil1, enil2, List.nil_append, List.nil_append, hst]
        exact ⟨ih1, ih2, ih3, ih4⟩
    | createKey n init =>
      have e0 : stepEvents w (Op.createKey n init) = [] := rfl
      have hseq : (stepOp w (Op.createKey n init)).st.global_tx_seq = w.st.global_tx_seq := rfl
      have hct : (stepOp w (Op.createKey n init)).st.global_commit_ts =
          w.st.global_commit_ts := rfl
      rw [e0, enil1, enil2, List.nil_append, List.nil_append]
      refine ⟨ih1, ?_, ih3, ?_⟩
      · intro x hx; have := ih2 x hx; omega
      · intro x hx; have := ih4 x hx; omega
    | readOp i keyname =>
      have e0 : stepEvents w (Op.readOp i keyname) = [] := rfl
      have hst : stepOp w (Op.readOp i keyname) = w := rfl
      rw [hst] at ih1 ih2 ih3 ih4
      rw [e0, enil1, enil2, List.nil_append, List.nil_append]
      exact ⟨ih1, ih2, ih3, ih4⟩
    | readVersionedOp keyname ts =>
      have e0 : stepEvents w (Op.readVersionedOp keyname ts) = [] := rfl
      have hst : stepOp w (Op.readVersionedOp keyname ts) = w := rfl
      rw [hst] at ih1 ih2 ih3 ih4
      rw [e0, enil1, enil2, List.nil_append, List.nil_append]
      exact ⟨ih1, ih2, ih3, ih4⟩
    | writeOp i key val =>
      have e0 : stepEvents w (Op.writeOp i key val) = [] := rfl
      have hst : (stepOp w (Op.writeOp i key val)).st = w.st := by
        by_cases hi : i < w.txs.length <;> simp [stepOp, hi]
      rw [e0, enil1, enil2, List.nil_append, List.nil_append]
      refine ⟨ih1, ?_, ih3, ?_⟩
      · intro x hx; have := ih2 x hx; rw [hst] at this; exact this
      · intro x hx; have := ih4 x hx; rw [hst] at this; exact this

/-- C4: over any sequence of operations, the transaction ids observed by
begins are pairwise strictly increasing (no two begins share an id) and
the commit timestamps published by commits are pairwise strictly
increasing (no two commits publish the same timestamp); moreover, from any
state, running any sequence never decreases either counter. -/
theorem c4_counters_strictly_increasing :
    ∀ (ops : List Op) (w : World),
      List.Pairwise (· < ·) (beganIds (runEv initWorld ops)) ∧
      List.Pairwise (· < ·) (commitTss (runEv initWorld ops)) ∧
      w.st.global_commit_ts ≤ (run w ops).st.global_commit_ts ∧
      w.st.global_tx_seq ≤ (run w ops).st.global_tx_seq := by
  intro ops w
  obtain ⟨p1, _, p3, _⟩ := runEv_strict ops initWorld
  obtain ⟨m1, m2⟩ := run_counters_mono ops w
  exact ⟨p1, p3, m1, m2⟩

/-- A string already within the buffer bound is unchanged by truncation. -/
theorem strTake_eq_self {n : Nat} {s : String} (h : s.length ≤ n) : strTake n s = s := by
  cases s with
  | mk data =>
    show String.mk (data.take n) = String.mk data
    rw [List.take_of_length_le (by simpa [String.length] using h)]

/-- After one commit-loop iteration for `name` (whose length fits the name
buffer), looking `name` up resolves to the old record (or a freshly created
one) with the new version prepended. -/
theorem get_key_store_write_self {store : List Key} {name : String} {ts : Int} {val : String}
    (hname : name.length ≤ MAX_KEYNAME - 1) :
    get_key (store_write store name ts val) name =
      some (add_version ((get_key store name).getD (create_key name "")) ts val) := by
  induction store with
  | nil =>
    have hcn : (add_version (create_key name "") ts val).name = name := by
      simp [add_version, create_key, strTake_eq_self hname]
    show get_key [add_version (create_key name "") ts val] name = _
    rw [get_key, List.find?_cons_of_pos _ (by simp [hcn])]
    rfl
  | cons k0 rest ih =>
    by_cases h : k0.name = name
    · have e1 : get_key (k0 :: rest) name = some k0 := by
        rw [get_key, List.find?_cons_of_pos _ (by simp [h])]
      rw [store_write, if_pos h, e1]
      rw [get_key, List.find?_cons_of_pos _ (by simp [add_version, h])]
      rfl
    · have e1 : get_key (k0 :: rest) name = get_key rest name := by
        rw [get_key, List.find?_cons_of_neg _ (by simp [h])]
        rfl
      rw [store_write, if_neg h, e1]
      rw [get_key, List.find?_cons_of_neg _ (by simp [h])]
      exact ih

/-- A commit-loop iteration for a different (buffer-fitting) name leaves
the lookup of `name'` unchanged. -/
theorem get_key_store_write_other {store : List Key} {name name' : String} {ts : Int}
    {val : String} (hname : name.length ≤ MAX_KEYNAME - 1) (hne : name' ≠ name) :
    get_key (store_write store name ts val) name' = get_key store name' := by
  induction store with
  | nil =>
    have hcn : (add_version (create_key name "") ts val).name = name := by
      simp [add_version, create_key, strTake_eq_self hname]
    show get_key [add_version (create_key name "") ts val] name' = get_key [] name'
    rw [get_key, List.find?_cons_of_neg _ (by simp [hcn]; exact fun hx => absurd hx.symm hne)]
    rfl
  | cons k0 rest ih =>
    by_cases h : k0.name = name
    · rw [store_write, if_pos h]
      by_cases h' : k0.name = name'
      · exact absurd (h'.symm.trans h) hne
      · rw [get_key, List.find?_cons_of_neg _ (by simp [add_version, h'])]
        rw [get_key, List.find?_cons_of_neg _ (by simp [h'])]
    · rw [store_write, if_neg h]
      by_cases h' : k0.name = name'
      · rw [get_key, List.find?_cons_of_pos _ (by simp [h'])]
        rw [get_key, List.find?_cons_of_pos _ (by simp [h'])]
      · rw [get_key, List.find?_cons_of_neg _ (by simp [h'])]
        rw [get_key, List.find?_cons_of_neg _ (by simp [h'])]
        exact ih

/-- Characterization of the whole commit loop for one key name: the lookup
afterwards is `published` of the lookup before and of the buffered writes
filtered to that name, provided every buffered key name fits the buffer. -/
theorem get_key_commit_writes {ts : Int} :
    ∀ (ws : List KVPair) (store : List Key) (name : String),
      (∀ p ∈ ws, p.key.length ≤ MAX_KEYNAME - 1) →
      get_key (commit_writes store ts ws) name =
        published (get_key store name) name ts (ws.filter (fun p => p.key == name)) := by
  intro ws
  induction ws with
  | nil =>
    intro store name _
    rw [commit_writes]
    cases hbase : get_key store name <;> rfl
  | cons p rest ih =>
    intro store name hks
    have hpk : p.key.length ≤ MAX_KEYNAME - 1 := hks p (by simp)
    have hrest : ∀ q ∈ rest, q.key.length ≤ MAX_KEYNAME - 1 := fun q hq => hks q (by simp [hq])
    rw [commit_writes, ih (store_write store p.key ts p.value) name hrest]
    by_cases hb : p.key = name
    · subst hb
      rw [get_key_store_write_self hpk, List.filter_cons_of_pos (by simp)]
      cases hbase : get_key store p.key with
      | none =>
        simp only [hbase, Option.getD_none, published]
        simp [add_version, create_key, strTake_eq_self hpk, List.reverse_cons,
          List.append_assoc]
      | some k0 =>
        simp only [hbase, Option.getD_some, published]
        simp [add_version, List.reverse_cons, List.append_assoc]
    · rw [get_key_store_write_other hpk (fun hx => hb hx.symm),
        List.filter_cons_of_neg (by simp [hb])]

/-- When at least one buffered write addresses the key, the published
record exists and its chain starts with the freshly published versions. -/
theorem published_versions {base : Option Key} {name : String} {ts : Int} {fs : List KVPair}
    (hfs : fs ≠ []) :
    ∃ k, published base name ts fs = some k ∧
      ∃ tail, k.versions = (fs.map (fun p => Version.mk ts p.value)).reverse ++ tail := by
  cases base with
  | some k0 => exact ⟨_, rfl, k0.versions, rfl⟩
  | none =>
    cases fs with
    | nil => exact absurd rfl hfs
    | cons f fs' =>
      exact ⟨_, rfl, [{ commit_ts := 0, value := "" }], rfl⟩

/-- One commit-loop iteration adds exactly one version carrying the
published timestamp (the sentinel of a freshly created key carries 0). -/
theorem countAtTs_store_write {store : List Key} {name : String} {ts : Int} {val : String}
    (h0 : ts ≠ 0) :
    countAtTs (store_write store name ts val) ts = countAtTs store ts + 1 := by
  induction store with
  | nil =>
    simp [countAtTs, store_write, add_version, create_key, List.countP_cons]
    omega
  | cons k0 rest ih =>
    by_cases h : k0.name = name
    · rw [store_write, if_pos h]
      simp [countAtTs, add_version, List.countP_cons]
      omega
    · rw [store_write, if_neg h]
      simp only [countAtTs, List.map_cons, List.sum_cons] at ih ⊢
      omega

/-- The commit loop adds exactly one version at the published timestamp per
buffered operation: no de-duplication. -/
theorem countAtTs_commit_writes {ts : Int} (h0 : ts ≠ 0) :
    ∀ (ws : List KVPair) (store : List Key),
      countAtTs (commit_writes store ts ws) ts = countAtTs store ts + ws.length := by
  intro ws
  induction ws with
  | nil => intro store; rw [commit_writes]; simp
  | cons p rest ih =>
    intro store
    rw [commit_writes, ih, countAtTs_store_write h0]
    simp
    omega

/-- A store whose timestamps are all bounded by `B` has no version at a
timestamp beyond `B`. -/
theorem countAtTs_zero {store : List Key} {B ts : Int}
    (h : ∀ k ∈ store, ∀ v ∈ k.versions, v.commit_ts ≤ B) (hlt : B < ts) :
    countAtTs store ts = 0 := by
  refine List.sum_eq_zero ?_
  intro x hx
  obtain ⟨k, hk, rfl⟩ := List.mem_map.1 hx
  refine List.countP_eq_zero.2 ?_
  intro v hv
  have := h k hk v hv
  simp only [beq_iff_eq]
  omega

/-- C2: a commit obtains exactly one fresh timestamp; every buffered
operation creates one version stamped with that shared timestamp (one per
occurrence, no de-duplication); and for every key occurring in the write
set, the resolved-or-created record's newest version is the last write to
that key in write_set order, so it wins on any subsequent read at or after
the commit timestamp.  (The hypotheses hold in every reachable state: key
names buffered by `tx_write` are truncated to fit, the commit counter
starts at 1, and stored timestamps never exceed it.) -/
theorem c2_commit_single_ts_no_dedup_last_wins
    (s : MState) (tx : Transaction)
    (hks : ∀ p ∈ tx.write_set, p.key.length ≤ MAX_KEYNAME - 1)
    (hgct : 1 ≤ s.global_commit_ts)
    (hstore : ∀ k ∈ s.store, ∀ v ∈ k.versions, v.commit_ts ≤ s.global_commit_ts) :
    (tx_commit s tx).1.global_commit_ts = s.global_commit_ts + 1 ∧
    countAtTs (tx_commit s tx).1.store (s.global_commit_ts + 1) = tx.write_set.length ∧
    (∀ name p0, p0 ∈ tx.write_set → p0.key = name →
      ∃ p k, (tx.write_set.filter (fun q => q.key == name)).getLast? = some p ∧
        get_key (tx_commit s tx).1.store name = some k ∧
        k.versions.head? =
          some { commit_ts := s.global_commit_ts + 1, value := p.value } ∧
        ∀ ts', s.global_commit_ts + 1 ≤ ts' →
          tx_read_versioned (tx_commit s tx).1.store name ts' =
            some { commit_ts := s.global_commit_ts + 1, value := p.value }) := by
  refine ⟨rfl, ?_, ?_⟩
  · show countAtTs (commit_writes s.store (s.global_commit_ts + 1) tx.write_set)
      (s.global_commit_ts + 1) = tx.write_set.length
    rw [countAtTs_commit_writes (by omega), countAtTs_zero hstore (by omega)]
    omega
  · intro name p0 hp0 hpname
    have hmemf : p0 ∈ tx.write_set.filter (fun q => q.key == name) :=
      List.mem_filter.2 ⟨hp0, by simp [hpname]⟩
    have hfs : tx.write_set.filter (fun q => q.key == name) ≠ [] := by
      intro hemp
      rw [hemp] at hmemf
      exact absurd hmemf (List.not_mem_nil p0)
    obtain ⟨p, hp⟩ := Option.isSome_iff_exists.1 (List.getLast?_isSome.2 hfs)
    have hchar : get_key (tx_commit s tx).1.store name =
        published (get_key s.store name) name (s.global_commit_ts + 1)
          (tx.write_set.filter (fun q => q.key == name)) :=
      get_key_commit_writes tx.write_set s.store name hks
    obtain ⟨k, hpub, tail, hvers⟩ := @published_versions (get_key s.store name) name
      (s.global_commit_ts + 1) _ hfs
    have hk : get_key (tx_commit s tx).1.store name = some k := hchar.trans hpub
    have hhead : k.versions.head? =
        some { commit_ts := s.global_commit_ts + 1, value := p.value } := by
      rw [hvers, List.head?_append, List.head?_reverse, List.getLast?_map, hp]
      rfl
    refine ⟨p, k, hp, hk, hhead, ?_⟩
    intro ts' hts'
    rcases hvk : k.versions with _ | ⟨v, vs⟩
    · rw [hvk] at hhead; exact absurd hhead (by simp)
    · rw [hvk] at hhead
      have hv : v = { commit_ts := s.global_commit_ts + 1, value := p.value } := by
        simpa using hhead
      have hred : tx_read_versioned (tx_commit s tx).1.store name ts' =
          visible_as_of k.versions ts' := by
        rw [tx_read_versioned, hk]
      rw [hred, hvk, hv, visible_as_of, if_pos (by simp; omega)]

/-- Witness for C2 at a concrete input: committing a transaction that
writes A twice and B once on a store holding only A creates 3 versions at
timestamp 2, and a later read of A sees the second write of A. -/
theorem c2_witness :
    (∀ p ∈ c2tx.write_set, p.key.length ≤ MAX_KEYNAME - 1) ∧
    countAtTs (tx_commit c2s c2tx).1.store 2 = 3 ∧
    tx_read_versioned (tx_commit c2s c2tx).1.store "A" 5 =
      some { commit_ts := 2, value := "2" } := by
  have h := c2_commit_single_ts_no_dedup_last_wins c2s c2tx (by decide) (by decide) (by decide)
  refine ⟨by decide, h.2.1, ?_⟩
  obtain ⟨p, k, hp, hk, hh, hread⟩ := h.2.2 "A" { key := "A", value := "1" } (by decide) rfl
  have hfilter : (c2tx.write_set.filter (fun q => q.key == "A")).getLast? =
      some { key := "A", value := "2" } := by decide
  rw [hfilter] at hp
  have hpv : p = { key := "A", value := "2" } := (Option.some_inj.1 hp).symm
  rw [hpv] at hread
  exact hread 5 (by decide)

end MVCC
